import Mathlib

/-!
Verification of the keep block-storage client of this repository.

The definitions below are a shallow embedding of the Go sources, chiefly
`sdk/go/src/arvados.org/keepclient/support.go`:

* `KeepClient.shuffledServiceRoots` embeds `shuffledServiceRoots`
  (support.go lines 104-150), the deterministic probe-sequence algorithm.
  Go strings are embedded as `List Char`; a Go slice-bounds panic is
  embedded as the result `none`.
* `Arvados.runPut` / `KeepClient.putReplicas` embed `putReplicas`
  (support.go lines 204-258).  The network responses delivered by
  `uploadToKeepServer` through the `upload_status` channel are abstracted
  by a backend-behaviour function `beh` (for the server at position `i` of
  the probe sequence, `beh i = (ok, stored)` where `ok` is whether the PUT
  returned HTTP 200 and `stored` is the reported `X-Keep-Replicas-Stored`
  count, default 1), and the nondeterministic completion order of the
  upload goroutines is abstracted by a scheduler function `sched` choosing
  which in-flight request's status is received next.  The execution also
  records a trace of launch/receive events so that properties of
  intermediate states can be stated.
* The volume lifecycle (`EmptyTrash`) and the disk cache read path are not
  part of the sources under verification (only the cache's test suite is),
  so they are modelled from the specification text; those definitions say
  so in their doc comments.
-/

namespace Arvados

/-- Value of one hexadecimal digit, as accepted by Go's
`strconv.ParseUint(_, 16, _)`: `0`-`9`, `a`-`f`, `A`-`F`. -/
def hexDigitVal (c : Char) : Option Nat :=
  if '0' ≤ c ∧ c ≤ '9' then some (c.toNat - '0'.toNat)
  else if 'a' ≤ c ∧ c ≤ 'f' then some (c.toNat - 'a'.toNat + 10)
  else if 'A' ≤ c ∧ c ≤ 'F' then some (c.toNat - 'A'.toNat + 10)
  else none

/-- Accumulating hex parser: `none` as soon as a non-hex character is hit,
mirroring Go's `ParseUint` syntax error. -/
def parseHexAux : List Char → Nat → Option Nat
  | [], acc => some acc
  | c :: cs, acc =>
    match hexDigitVal c with
    | some v => parseHexAux cs (acc * 16 + v)
    | none => none

/-- Embeds `probe, _ := strconv.ParseUint(seed[0:8], 16, 32)` in
support.go line 138: the error is discarded, and on a syntax error Go's
`ParseUint` returns 0.  The argument is always 8 hex digits long, so the
value fits 32 bits and no range error can occur. -/
def parseUintHex (s : List Char) : Nat :=
  match parseHexAux s 0 with
  | some v => v
  | none => 0

/-- Embeds the client state of the Go `KeepClient` struct, keeping the
fields referenced by `support.go` (the HTTP client handle is not
modelled). -/
structure KeepClient where
  ApiServer : String
  ApiToken : String
  External : Bool
  Using_proxy : Bool
  Service_roots : List String
  Want_replicas : Int
deriving Repr

/-- Embeds the seed refill of `shuffledServiceRoots` (support.go lines
123-133), with `chosen` standing for `len(pseq)`.  When the guard
`len(pseq) < len(hash)/4` holds, Go executes `seed = hash[len(hash)-4:]`
(which panics when `len(hash) < 4`, embedded as `none`) before `seed +=
hash`; otherwise only `seed += hash` runs. -/
def refillSeed (hash seed : List Char) (chosen : Nat) : Option (List Char) :=
  if seed.length < 8 then
    if chosen < hash.length / 4 then
      if hash.length < 4 then none
      else some (hash.drop (hash.length - 4) ++ hash)
    else some (seed ++ hash)
  else some seed

/-- Embeds the loop of `shuffledServiceRoots` (support.go lines 121-148).
`fuel` is the number of loop iterations still allowed; each iteration
erases exactly one element of `pool`, so instantiating `fuel` with
`pool.length` (as `KeepClient.shuffledServiceRoots` does) makes the fuel
branch unreachable: `none` then means exactly that the Go code panics on a
string slice out of range (`hash[len(hash)-4:]` with `len(hash) < 4`, or
`seed[0:8]` with `len(seed) < 8`). -/
def shuffledLoop (hash : List Char) : Nat → List Char → List String → List String →
    Option (List String)
  | _, _, [], pseq => some pseq
  | 0, _, _ :: _, _ => none
  | fuel + 1, seed, p :: ps, pseq =>
    match refillSeed hash seed pseq.length with
    | none => none
    | some s1 =>
      -- Go: seed[0:8]; panics when len(seed) < 8
      if s1.length < 8 then none
      else
        let probe := parseUintHex (s1.take 8) % (ps.length + 1)
        shuffledLoop hash fuel (s1.drop 8) ((p :: ps).eraseIdx probe)
          (pseq ++ [(p :: ps).getD probe ""])

/-- Embeds `func (this KeepClient) shuffledServiceRoots(hash string)`
(support.go lines 104-150).  `none` embeds a Go runtime panic. -/
def KeepClient.shuffledServiceRoots (this : KeepClient) (hash : List Char) :
    Option (List String) :=
  shuffledLoop hash this.Service_roots.length hash this.Service_roots []

/-- The refill rule exactly as claim C3 states it: at EVERY exhaustion of
the digit stream the new stream is the digest's trailing 4 digits followed
by the full digest, regardless of how many backends have been chosen.
This definition follows the claim's words and is compared with the source
embedding `shuffledLoop`. -/
def claimedLoop (hash : List Char) : Nat → List Char → List String → List String →
    Option (List String)
  | _, _, [], pseq => some pseq
  | 0, _, _ :: _, _ => none
  | fuel + 1, seed, p :: ps, pseq =>
    let seed1 : Option (List Char) :=
      if seed.length < 8 then
        if hash.length < 4 then none
        else some (hash.drop (hash.length - 4) ++ hash)
      else some seed
    match seed1 with
    | none => none
    | some s1 =>
      if s1.length < 8 then none
      else
        let probe := parseUintHex (s1.take 8) % (ps.length + 1)
        claimedLoop hash fuel (s1.drop 8) ((p :: ps).eraseIdx probe)
          (pseq ++ [(p :: ps).getD probe ""])

/-- Probe sequence computed with the refill rule of claim C3 as stated. -/
def claimedProbeSequence (roots : List String) (hash : List Char) :
    Option (List String) :=
  claimedLoop hash roots.length hash roots []

/-- The probe-sequence algorithm as described by the amended claim C3,
written from the amended words: keep an explicit count `chosen` of
backends already chosen; at an exhaustion of the digit stream, refill with
the digest's trailing 4 digits followed by the full digest only while
`chosen` is below `len(hash)/4`; at later exhaustions keep the remaining
stream digits and append the full digest to them. -/
def amendedLoop (hash : List Char) : Nat → List Char → Nat → List String → List String →
    Option (List String)
  | _, _, _, [], out => some out
  | 0, _, _, _ :: _, _ => none
  | fuel + 1, stream, chosen, p :: ps, out =>
    let stream1 : Option (List Char) :=
      if stream.length < 8 then
        if chosen < hash.length / 4 then
          if hash.length < 4 then none
          else some (hash.drop (hash.length - 4) ++ hash)
        else some (stream ++ hash)
      else some stream
    match stream1 with
    | none => none
    | some s1 =>
      if s1.length < 8 then none
      else
        let probe := parseUintHex (s1.take 8) % (ps.length + 1)
        amendedLoop hash fuel (s1.drop 8) (chosen + 1) ((p :: ps).eraseIdx probe)
          (out ++ [(p :: ps).getD probe ""])

/-- Probe sequence computed with the amended refill rule of claim C3. -/
def amendedProbeSequence (roots : List String) (hash : List Char) :
    Option (List String) :=
  amendedLoop hash roots.length hash 0 roots []

/-- Selecting the element at a valid index and erasing it is a permutation
step: `l[i] :: (l minus its i-th element)` is a rearrangement of `l`. -/
theorem getD_cons_eraseIdx_perm {α : Type} (d : α) :
    ∀ (l : List α) (i : Nat), i < l.length → (l.getD i d :: l.eraseIdx i).Perm l
  | [], i, h => absurd h (by simp)
  | _ :: _, 0, _ => by simp
  | a :: l, i + 1, h => by
    have ih := getD_cons_eraseIdx_perm d l i (by simpa using h)
    simpa using (List.Perm.swap a (l.getD i d) (l.eraseIdx i)).trans (ih.cons a)

/-- When the digest has at least 8 digits, the refill always succeeds and
always returns at least 8 digits of seed. -/
theorem refillSeed_some_of_len (hash seed : List Char) (c : Nat)
    (h8 : 8 ≤ hash.length) :
    ∃ s1, refillSeed hash seed c = some s1 ∧ 8 ≤ s1.length := by
  unfold refillSeed
  split
  · split
    · rw [if_neg (by omega)]
      exact ⟨_, rfl, by simp; omega⟩
    · exact ⟨_, rfl, by simp; omega⟩
  · exact ⟨_, rfl, by omega⟩

/-- Main loop invariant for `shuffledServiceRoots`: with a digest of at
least 8 digits and fuel equal to the pool size, the loop never panics and
its output extends `pseq` with a rearrangement of the whole pool. -/
theorem shuffledLoop_perm (hash : List Char) (h8 : 8 ≤ hash.length) :
    ∀ n (pool : List String), pool.length = n → ∀ seed pseq,
      ∃ l, shuffledLoop hash n seed pool pseq = some l ∧ l.Perm (pseq ++ pool) := by
  intro n
  induction n with
  | zero =>
    intro pool hp seed pseq
    rw [List.length_eq_zero] at hp
    subst hp
    exact ⟨pseq, rfl, by simp⟩
  | succ n ih =>
    intro pool hp seed pseq
    match pool, hp with
    | p :: ps, hp =>
      obtain ⟨s1, hs1, hlen⟩ := refillSeed_some_of_len hash seed pseq.length h8
      have hplt : parseUintHex (s1.take 8) % (ps.length + 1) < (p :: ps).length := by
        simpa using Nat.mod_lt _ (Nat.succ_pos ps.length)
      have herase : ((p :: ps).eraseIdx (parseUintHex (s1.take 8) % (ps.length + 1))).length = n := by
        have h1 := List.length_eraseIdx_add_one hplt
        simp only [List.length_cons] at h1 hp
        omega
      obtain ⟨l, hl, hperm⟩ :=
        ih _ herase (s1.drop 8)
          (pseq ++ [(p :: ps).getD (parseUintHex (s1.take 8) % (ps.length + 1)) ""])
      refine ⟨l, ?_, ?_⟩
      · simp only [shuffledLoop, hs1, if_neg (by omega : ¬ s1.length < 8)]
        exact hl
      · refine hperm.trans ?_
        rw [List.append_assoc, List.singleton_append]
        exact List.Perm.append_left pseq
          (getD_cons_eraseIdx_perm "" (p :: ps) _ hplt)

/-- C1: the probe sequence is deterministic: it is a pure function of the
locator hash and the `Service_roots` backend list.  Two clients with the
same backend list — whatever their other state (token, proxy flag, desired
replication, …) — compute identical probe sequences for the same hash, so
computing it twice on one client trivially gives identical sequences. -/
theorem shuffled_deterministic (k1 k2 : KeepClient) (hash : List Char)
    (h : k1.Service_roots = k2.Service_roots) :
    k1.shuffledServiceRoots hash = k2.shuffledServiceRoots hash := by
  simp only [KeepClient.shuffledServiceRoots, h]

theorem shuffled_deterministic_witness :
    ({ ApiServer := "api.one", ApiToken := "tok1", External := true,
       Using_proxy := true, Service_roots := ["http://a", "http://b"],
       Want_replicas := 2 } : KeepClient).Service_roots =
      ({ ApiServer := "api.two", ApiToken := "tok2", External := false,
         Using_proxy := false, Service_roots := ["http://a", "http://b"],
         Want_replicas := 7 } : KeepClient).Service_roots ∧
    ({ ApiServer := "api.one", ApiToken := "tok1", External := true,
       Using_proxy := true, Service_roots := ["http://a", "http://b"],
       Want_replicas := 2 } : KeepClient).shuffledServiceRoots
        "0123456789abcdef".toList =
      ({ ApiServer := "api.two", ApiToken := "tok2", External := false,
         Using_proxy := false, Service_roots := ["http://a", "http://b"],
         Want_replicas := 7 } : KeepClient).shuffledServiceRoots
        "0123456789abcdef".toList :=
  ⟨rfl, shuffled_deterministic _ _ _ rfl⟩

/-- C2: for a locator hash of at least 8 hex digits, the probe sequence
exists (no panic), has the same length as `Service_roots`, and is a
permutation of `Service_roots`: every backend is visited exactly once. -/
theorem shuffled_permutation (k : KeepClient) (hash : List Char)
    (hlen : 8 ≤ hash.length) (_hhex : ∀ c ∈ hash, (hexDigitVal c).isSome) :
    ∃ l, k.shuffledServiceRoots hash = some l ∧
      l.length = k.Service_roots.length ∧ l.Perm k.Service_roots := by
  obtain ⟨l, hl, hperm⟩ :=
    shuffledLoop_perm hash hlen k.Service_roots.length k.Service_roots rfl hash []
  rw [List.nil_append] at hperm
  exact ⟨l, hl, hperm.length_eq, hperm⟩

theorem shuffled_permutation_witness :
    8 ≤ ("0123456789abcdef".toList).length ∧
    (∀ c ∈ "0123456789abcdef".toList, (hexDigitVal c).isSome) ∧
    ∃ l, ({ ApiServer := "", ApiToken := "", External := false,
            Using_proxy := false, Service_roots := ["http://a", "http://b", "http://c"],
            Want_replicas := 2 } : KeepClient).shuffledServiceRoots
        "0123456789abcdef".toList = some l ∧
      l.length = (["http://a", "http://b", "http://c"] : List String).length ∧
      l.Perm ["http://a", "http://b", "http://c"] :=
  ⟨by decide, by decide, shuffled_permutation _ _ (by decide) (by decide)⟩

/-- C3 counterexample: the claimed refill rule ("trailing 4 digits of the
digest plus the digest, at every exhaustion of the stream") does not match
the code.  For the 12-digit hash `000000010000` and five backends, the
code consumes the stream exactly as claimed for the first three picks, but
at the fourth exhaustion `len(pseq) = 3` is not `< len(hash)/4 = 3`, so the
code keeps the (empty) remaining stream and appends the digest, picking
backend `e` where the claimed rule picks `c`. -/
theorem shuffled_refill_counterexample :
    ({ ApiServer := "", ApiToken := "", External := false, Using_proxy := false,
       Service_roots := ["a", "b", "c", "d", "e"],
       Want_replicas := 2 } : KeepClient).shuffledServiceRoots
        "000000010000".toList = some ["b", "a", "d", "e", "c"] ∧
    claimedProbeSequence ["a", "b", "c", "d", "e"] "000000010000".toList =
      some ["b", "a", "d", "c", "e"] ∧
    ({ ApiServer := "", ApiToken := "", External := false, Using_proxy := false,
       Service_roots := ["a", "b", "c", "d", "e"],
       Want_replicas := 2 } : KeepClient).shuffledServiceRoots
        "000000010000".toList ≠
      claimedProbeSequence ["a", "b", "c", "d", "e"] "000000010000".toList := by
  refine ⟨by decide, by decide, by decide⟩

/-- C3 amended: the trailing-4-digits refill applies only at exhaustions
that occur while fewer backends have been chosen than `len(hash)/4`; at
every later exhaustion the remaining stream digits are kept and the full
digest is appended to them.  The code equals the algorithm so described. -/
theorem shuffled_refill_amended (k : KeepClient) (hash : List Char) :
    k.shuffledServiceRoots hash = amendedProbeSequence k.Service_roots hash := by
  suffices h : ∀ fuel (pool : List String) seed pseq chosen, chosen = pseq.length →
      shuffledLoop hash fuel seed pool pseq = amendedLoop hash fuel seed chosen pool pseq by
    exact h k.Service_roots.length k.Service_roots hash [] 0 rfl
  intro fuel
  induction fuel with
  | zero =>
    intro pool seed pseq chosen hc
    match pool with
    | [] => rfl
    | p :: ps => rfl
  | succ fuel ih =>
    intro pool seed pseq chosen hc
    match pool with
    | [] => rfl
    | p :: ps =>
      simp only [shuffledLoop, amendedLoop, refillSeed, hc]
      cases hr : (if seed.length < 8 then
          if pseq.length < hash.length / 4 then
            if hash.length < 4 then none
            else some (hash.drop (hash.length - 4) ++ hash)
          else some (seed ++ hash)
        else some seed) with
      | none => rfl
      | some s1 =>
        by_cases h : s1.length < 8
        · simp [h]
        · simp only [if_neg h]
          refine ih _ _ _ _ ?_
          simp

/-- C9: for a locator hash of at least 8 hex digits the function
terminates normally — every slicing operation stays in range, embedded by
the result being `some` — while for a 4-digit hash with two backends the
code panics (slices `seed[0:8]` with only 4 digits of seed left), embedded
by the result `none`. -/
theorem shuffled_totality :
    (∀ (k : KeepClient) (hash : List Char), 8 ≤ hash.length →
      (∀ c ∈ hash, (hexDigitVal c).isSome) →
      (k.shuffledServiceRoots hash).isSome) ∧
    ({ ApiServer := "", ApiToken := "", External := false, Using_proxy := false,
       Service_roots := ["http://x", "http://y"],
       Want_replicas := 2 } : KeepClient).shuffledServiceRoots "abcd".toList
      = none := by
  constructor
  · intro k hash hlen _
    obtain ⟨l, hl, -⟩ :=
      shuffledLoop_perm hash hlen k.Service_roots.length k.Service_roots rfl hash []
    rw [KeepClient.shuffledServiceRoots, hl]
    rfl
  · decide

theorem shuffled_totality_witness :
    8 ≤ ("00112233aabbccdd".toList).length ∧
    (({ ApiServer := "", ApiToken := "", External := false, Using_proxy := false,
        Service_roots := ["http://x", "http://y", "http://z"],
        Want_replicas := 2 } : KeepClient).shuffledServiceRoots
      "00112233aabbccdd".toList).isSome :=
  ⟨by decide, shuffled_totality.1 _ _ (by decide) (by decide)⟩

/-- Embeds the package-level error value `InsufficientReplicasError`
returned by `putReplicas` (support.go line 236). -/
inductive KeepError
  | insufficientReplicas
deriving DecidableEq, Repr

def InsufficientReplicasError : KeepError := KeepError.insufficientReplicas

/-- Events of a `putReplicas` execution: launching the upload goroutine
for the server at position `srv` of the probe sequence (support.go line
230), and receiving one `uploadStatus` from it on the `upload_status`
channel (line 244; `ok` is whether `statusCode == 200`, `stored` the
reported `replicas_stored`). -/
inductive Ev
  | launch (srv : Nat)
  | recv (srv : Nat) (ok : Bool) (stored : Nat)
deriving DecidableEq, Repr

/-- Servers whose upload goroutine was launched, in trace order. -/
def launches : List Ev → List Nat
  | [] => []
  | Ev.launch s :: t => s :: launches t
  | _ :: t => launches t

/-- Servers whose upload status was received, in trace order. -/
def recvs : List Ev → List Nat
  | [] => []
  | Ev.recv s _ _ :: t => s :: recvs t
  | _ :: t => recvs t

/-- Total number of replicas reported stored by the successful statuses of
a trace: exactly the amount by which `putReplicas` has decremented
`remaining_replicas` (support.go line 247). -/
def sumStored : List Ev → Int
  | [] => 0
  | Ev.recv _ true st :: t => (st : Int) + sumStored t
  | _ :: t => sumStored t

/-- The value of the `active` counter of `putReplicas` after the events of
a trace: uploads launched minus statuses received. -/
def activeAfter (t : List Ev) : Int :=
  ((launches t).length : Int) - ((recvs t).length : Int)

/-- The value of `remaining_replicas` after the events of a trace. -/
def remainingAfter (want : Int) (t : List Ev) : Int :=
  want - sumStored t

/-- Embeds the inner launch loop of `putReplicas` (support.go lines
227-241): while `active < remaining_replicas`, launch an upload to the
next server of the probe sequence; once the probe sequence is exhausted,
give up (embedded `none`, Go's early `return` with
`InsufficientReplicasError`) if nothing is in flight, else stop launching.
`inflight` is the list of launched-but-unanswered servers, so `active =
inflight.length`.  `gas` counts the servers not yet tried and is
instantiated with `n - next`, making `gas = 0` exactly Go's
`next_server >= len(sv)`. -/
def launchGo (remaining : Int) : Nat → Nat → List Nat → Option (Nat × List Nat)
  | next, 0, inflight =>
    if (inflight.length : Int) < remaining then
      if inflight.length = 0 then none else some (next, inflight)
    else some (next, inflight)
  | next, gas + 1, inflight =>
    if (inflight.length : Int) < remaining then
      launchGo remaining (next + 1) gas (inflight ++ [next])
    else some (next, inflight)

/-- The launch phase of one iteration of the outer loop of `putReplicas`,
returning the new `next_server` value and in-flight list. -/
def launchPhase (n next : Nat) (inflight : List Nat) (remaining : Int) :
    Option (Nat × List Nat) :=
  launchGo remaining next (n - next) inflight

/-- Embeds the outer loop of `putReplicas` (support.go lines 226-255) with
the abstractions described in the file header: `beh` gives each server's
response, `sched k` chooses (mod the number in flight) which in-flight
status arrives at the `k`-th receive.  The counter `m` is instantiated
with `(n - next) + inflight.length`, a quantity every iteration decreases
by exactly one (the launch phase keeps it unchanged and exactly one status
is received per iteration), so the `m = 0` branch below with a successful
launch phase is unreachable; it repeats the insufficient-replicas return
so that the function is total.  The trace records every launch and every
received status. -/
def runPutGo (n : Nat) (want : Int) (beh : Nat → Bool × Nat) (sched : Nat → Nat) :
    Nat → Nat → Nat → List Nat → Int → (Int × Option KeepError) × List Ev
  | m, k, next, inflight, remaining =>
    if 0 < remaining then
      match launchPhase n next inflight remaining, m with
      | none, _ =>
        -- pool exhausted with nothing in flight (support.go line 236)
        ((want - remaining, some InsufficientReplicasError), [])
      | some _, 0 =>
        ((want - remaining, some InsufficientReplicasError), [])
      | some (next1, inflight1), m' + 1 =>
        let i := sched k % inflight1.length
        let srv := inflight1.getD i 0
        let ok := (beh srv).1
        let stored := (beh srv).2
        let rest := runPutGo n want beh sched m' (k + 1) next1 (inflight1.eraseIdx i)
          (if ok then remaining - (stored : Int) else remaining)
        (rest.1,
          (List.range' next (next1 - next)).map Ev.launch ++ Ev.recv srv ok stored :: rest.2)
    else ((want, none), [])

/-- One full run of the write orchestration loop of `putReplicas` against
`n` servers, wanting `want` replicas. -/
def runPut (n : Nat) (want : Int) (beh : Nat → Bool × Nat) (sched : Nat → Nat) :
    (Int × Option KeepError) × List Ev :=
  runPutGo n want beh sched n 0 0 [] want

/-- Embeds `func (this KeepClient) putReplicas` (support.go lines
204-258): compute the probe sequence (`none` embeds the panic of
`shuffledServiceRoots`), then run the upload loop against it.  The result
carries the returned `(replicas, err)` pair together with the event
trace. -/
def KeepClient.putReplicas (this : KeepClient) (hash : List Char)
    (beh : Nat → Bool × Nat) (sched : Nat → Nat) :
    Option ((Int × Option KeepError) × List Ev) :=
  (this.shuffledServiceRoots hash).map fun sv =>
    runPut sv.length this.Want_replicas beh sched

/-- Replicas a server contributes if its status is received: `stored` on
HTTP 200, nothing otherwise. -/
def storedOf (beh : Nat → Bool × Nat) (s : Nat) : Int :=
  if (beh s).1 then ((beh s).2 : Int) else 0

theorem launches_append : ∀ s t, launches (s ++ t) = launches s ++ launches t
  | [], _ => rfl
  | Ev.launch _ :: s, t => by simp [launches, launches_append s t]
  | Ev.recv _ _ _ :: s, t => by simp [launches, launches_append s t]

theorem recvs_append : ∀ s t, recvs (s ++ t) = recvs s ++ recvs t
  | [], _ => rfl
  | Ev.launch _ :: s, t => by simp [recvs, recvs_append s t]
  | Ev.recv _ _ _ :: s, t => by simp [recvs, recvs_append s t]

theorem sumStored_append : ∀ s t, sumStored (s ++ t) = sumStored s + sumStored t
  | [], t => by simp [sumStored]
  | Ev.launch _ :: s, t => by simp [sumStored, sumStored_append s t]
  | Ev.recv _ ok _ :: s, t => by
    cases ok <;> (simp [sumStored, sumStored_append s t]; try ring)

theorem launches_map_launch : ∀ l : List Nat, launches (l.map Ev.launch) = l
  | [] => rfl
  | _ :: l => by simp [launches, launches_map_launch l]

theorem recvs_map_launch : ∀ l : List Nat, recvs (l.map Ev.launch) = []
  | [] => rfl
  | _ :: l => by simp [recvs, recvs_map_launch l]

theorem sumStored_map_launch : ∀ l : List Nat, sumStored (l.map Ev.launch) = 0
  | [] => rfl
  | _ :: l => by simp [sumStored, sumStored_map_launch l]

/-- The launch loop returns `none` (Go's early insufficient-replicas
return) only when called with nothing in flight, no server left to try,
and a positive deficit. -/
theorem launchGo_none (remaining : Int) :
    ∀ gas next inflight, launchGo remaining next gas inflight = none →
      inflight = [] ∧ gas = 0 ∧ 0 < remaining := by
  intro gas
  induction gas with
  | zero =>
    intro next inflight h
    rw [launchGo] at h
    split at h
    · split at h
      · rename_i hlt hz
        rw [List.length_eq_zero] at hz
        refine ⟨hz, rfl, ?_⟩
        subst hz
        simpa using hlt
      · exact absurd h (by simp)
    · exact absurd h (by simp)
  | succ gas ih =>
    intro next inflight h
    rw [launchGo] at h
    split at h
    · obtain ⟨habs, -, -⟩ := ih _ _ h
      exact absurd habs (by simp)
    · exact absurd h (by simp)

/-- Shape of a successful launch phase: some consecutive block of `d ≤ gas`
fresh servers is appended to the in-flight list; each of them was launched
with the in-flight count (including it) still at most the deficit; and if
the deficit is positive, something is in flight afterwards. -/
theorem launchGo_shape (remaining : Int) :
    ∀ gas next inflight next1 inflight1,
      launchGo remaining next gas inflight = some (next1, inflight1) →
      ∃ d, d ≤ gas ∧ next1 = next + d ∧
        inflight1 = inflight ++ List.range' next d ∧
        (∀ j < d, (inflight.length + j : Int) < remaining) ∧
        (0 < remaining → inflight1 ≠ []) := by
  intro gas
  induction gas with
  | zero =>
    intro next inflight next1 inflight1 h
    rw [launchGo] at h
    refine ⟨0, Nat.le_refl 0, ?_⟩
    split at h
    · split at h
      · exact absurd h (by simp)
      · rename_i hlt hz
        obtain ⟨rfl, rfl⟩ : next1 = next ∧ inflight1 = inflight := by
          simpa [Prod.ext_iff] using h.symm
        refine ⟨rfl, by simp, by omega, fun _ => ?_⟩
        intro hnil
        exact hz (by simp [hnil])
    · rename_i hge
      obtain ⟨rfl, rfl⟩ : next1 = next ∧ inflight1 = inflight := by
        simpa [Prod.ext_iff] using h.symm
      refine ⟨rfl, by simp, by omega, fun hr => ?_⟩
      intro hnil
      rw [hnil] at hge
      simp at hge
      omega
  | succ gas ih =>
    intro next inflight next1 inflight1 h
    rw [launchGo] at h
    split at h
    · rename_i hlt
      obtain ⟨d, hd, hnext, hinf, hbound, hne⟩ := ih _ _ _ _ h
      refine ⟨d + 1, by omega, by omega, ?_, ?_, hne⟩
      · rw [hinf, List.range'_succ, List.append_assoc, List.singleton_append]
      · intro j hj
        match j with
        | 0 => simpa using hlt
        | j + 1 =>
          have := hbound j (by omega)
          simp only [List.length_append, List.length_singleton] at this
          push_cast at this ⊢
          omega
    · rename_i hge
      obtain ⟨rfl, rfl⟩ : next1 = next ∧ inflight1 = inflight := by
        simpa [Prod.ext_iff] using h.symm
      refine ⟨0, by omega, by simp, by simp, by omega, fun hr => ?_⟩
      intro hnil
      rw [hnil] at hge
      simp at hge
      omega

/-- `launchPhase` specialisation of `launchGo_none`. -/
theorem launchPhase_none (n next : Nat) (inflight : List Nat) (remaining : Int)
    (h : launchPhase n next inflight remaining = none) :
    inflight = [] ∧ n ≤ next ∧ 0 < remaining := by
  obtain ⟨h1, h2, h3⟩ := launchGo_none remaining (n - next) next inflight h
  exact ⟨h1, by omega, h3⟩

/-- `launchPhase` specialisation of `launchGo_shape`. -/
theorem launchPhase_shape (n next : Nat) (inflight : List Nat) (remaining : Int)
    (next1 : Nat) (inflight1 : List Nat) (hn : next ≤ n)
    (h : launchPhase n next inflight remaining = some (next1, inflight1)) :
    ∃ d, next1 = next + d ∧ next1 ≤ n ∧
      inflight1 = inflight ++ List.range' next d ∧
      (∀ j < d, (inflight.length + j : Int) < remaining) ∧
      (0 < remaining → inflight1 ≠ []) := by
  obtain ⟨d, hd, h1, h2, h3, h4⟩ := launchGo_shape remaining (n - next) next inflight _ _ h
  exact ⟨d, h1, by omega, h2, h3, h4⟩

/-- Gluing consecutive `range'` blocks. -/
theorem range'_glue (s d e : Nat) :
    List.range' s d ++ List.range' (s + d) e = List.range' s (d + e) := by
  rw [Nat.add_comm d e]
  have h := List.range'_append s d e 1
  simp only [Nat.one_mul] at h
  exact h

theorem sumStored_cons_recv (s : Nat) (ok : Bool) (st : Nat) (t : List Ev) :
    sumStored (Ev.recv s ok st :: t) = (if ok then (st : Int) else 0) + sumStored t := by
  cases ok <;> simp [sumStored]

/-- Unfolding: the outer loop exits returning `(want, nil)` as soon as the
deficit is gone (support.go line 257). -/
theorem runPutGo_exit (n : Nat) (want : Int) (beh : Nat → Bool × Nat) (sched : Nat → Nat)
    (m k next : Nat) (inflight : List Nat) (remaining : Int) (hrem : ¬ 0 < remaining) :
    runPutGo n want beh sched m k next inflight remaining = ((want, none), []) := by
  cases hl : launchPhase n next inflight remaining with
  | none => rw [runPutGo.eq_1 n want beh sched k next inflight remaining m hl, if_neg hrem]
  | some pr =>
    obtain ⟨next1, inflight1⟩ := pr
    cases m with
    | zero =>
      rw [runPutGo.eq_2 n want beh sched k next inflight remaining (next1, inflight1) hl,
        if_neg hrem]
    | succ m' =>
      rw [runPutGo.eq_3 n want beh sched k next inflight remaining next1 inflight1 m' hl,
        if_neg hrem]

/-- Unfolding: pool exhausted with nothing in flight returns the achieved
count and `InsufficientReplicasError` (support.go line 236). -/
theorem runPutGo_noLaunch (n : Nat) (want : Int) (beh : Nat → Bool × Nat) (sched : Nat → Nat)
    (m k next : Nat) (inflight : List Nat) (remaining : Int) (hrem : 0 < remaining)
    (hl : launchPhase n next inflight remaining = none) :
    runPutGo n want beh sched m k next inflight remaining =
      ((want - remaining, some InsufficientReplicasError), []) := by
  rw [runPutGo.eq_1 n want beh sched k next inflight remaining m hl, if_pos hrem]

/-- Unfolding: the unreachable fuel-exhaustion branch. -/
theorem runPutGo_fuel (n : Nat) (want : Int) (beh : Nat → Bool × Nat) (sched : Nat → Nat)
    (k next : Nat) (inflight : List Nat) (remaining : Int) (next1 : Nat)
    (inflight1 : List Nat) (hrem : 0 < remaining)
    (hl : launchPhase n next inflight remaining = some (next1, inflight1)) :
    runPutGo n want beh sched 0 k next inflight remaining =
      ((want - remaining, some InsufficientReplicasError), []) := by
  rw [runPutGo.eq_2 n want beh sched k next inflight remaining (next1, inflight1) hl,
    if_pos hrem]

/-- Unfolding: one full iteration of the outer loop — launch phase, then
receive the status chosen by the scheduler and update the state
(support.go lines 243-254). -/
theorem runPutGo_step (n : Nat) (want : Int) (beh : Nat → Bool × Nat) (sched : Nat → Nat)
    (m k next : Nat) (inflight : List Nat) (remaining : Int) (next1 : Nat)
    (inflight1 : List Nat) (hrem : 0 < remaining)
    (hl : launchPhase n next inflight remaining = some (next1, inflight1)) :
    runPutGo n want beh sched (m + 1) k next inflight remaining =
      ((runPutGo n want beh sched m (k + 1) next1
          (inflight1.eraseIdx (sched k % inflight1.length))
          (if (beh (inflight1.getD (sched k % inflight1.length) 0)).1 then
            remaining - ((beh (inflight1.getD (sched k % inflight1.length) 0)).2 : Int)
          else remaining)).1,
        (List.range' next (next1 - next)).map Ev.launch ++
          Ev.recv (inflight1.getD (sched k % inflight1.length) 0)
            (beh (inflight1.getD (sched k % inflight1.length) 0)).1
            (beh (inflight1.getD (sched k % inflight1.length) 0)).2 ::
          (runPutGo n want beh sched m (k + 1) next1
            (inflight1.eraseIdx (sched k % inflight1.length))
            (if (beh (inflight1.getD (sched k % inflight1.length) 0)).1 then
              remaining - ((beh (inflight1.getD (sched k % inflight1.length) 0)).2 : Int)
            else remaining)).2) := by
  rw [runPutGo.eq_3 n want beh sched k next inflight remaining next1 inflight1 m hl,
    if_pos hrem]

/-- Result invariant of the outer loop: a nil error returns exactly `want`
and means the deficit was closed; an error returns exactly the replicas
achieved (initial deficit minus what remains) with a positive deficit
left, and the only error is `InsufficientReplicasError`. -/
theorem runPutGo_result (n : Nat) (want : Int) (beh : Nat → Bool × Nat) (sched : Nat → Nat) :
    ∀ (m k next : Nat) (inflight : List Nat) (remaining : Int)
      (rep : Int) (err : Option KeepError) (tr : List Ev),
      runPutGo n want beh sched m k next inflight remaining = ((rep, err), tr) →
      (err = none → rep = want ∧ remaining - sumStored tr ≤ 0) ∧
      (err ≠ none → err = some InsufficientReplicasError ∧
        rep = want - (remaining - sumStored tr) ∧ 0 < remaining - sumStored tr) := by
  intro m
  induction m with
  | zero =>
    intro k next inflight remaining rep err tr h
    by_cases hrem : 0 < remaining
    · cases hl : launchPhase n next inflight remaining with
      | none =>
        rw [runPutGo_noLaunch n want beh sched 0 k next inflight remaining hrem hl,
          Prod.mk.injEq, Prod.mk.injEq] at h
        obtain ⟨⟨hrep, herr⟩, htr⟩ := h
        subst hrep herr htr
        refine ⟨fun hc => by simp at hc, fun _ => ⟨rfl, by simp [sumStored], ?_⟩⟩
        simp [sumStored]
        omega
      | some pr =>
        obtain ⟨next1, inflight1⟩ := pr
        rw [runPutGo_fuel n want beh sched k next inflight remaining next1 inflight1
          hrem hl, Prod.mk.injEq, Prod.mk.injEq] at h
        obtain ⟨⟨hrep, herr⟩, htr⟩ := h
        subst hrep herr htr
        refine ⟨fun hc => by simp at hc, fun _ => ⟨rfl, by simp [sumStored], ?_⟩⟩
        simp [sumStored]
        omega
    · rw [runPutGo_exit n want beh sched 0 k next inflight remaining hrem,
        Prod.mk.injEq, Prod.mk.injEq] at h
      obtain ⟨⟨hrep, herr⟩, htr⟩ := h
      subst hrep herr htr
      refine ⟨fun _ => ⟨rfl, ?_⟩, fun hc => absurd rfl hc⟩
      simp [sumStored]
      omega
  | succ m ih =>
    intro k next inflight remaining rep err tr h
    by_cases hrem : 0 < remaining
    · cases hl : launchPhase n next inflight remaining with
      | none =>
        rw [runPutGo_noLaunch n want beh sched (m + 1) k next inflight remaining hrem hl,
          Prod.mk.injEq, Prod.mk.injEq] at h
        obtain ⟨⟨hrep, herr⟩, htr⟩ := h
        subst hrep herr htr
        refine ⟨fun hc => by simp at hc, fun _ => ⟨rfl, by simp [sumStored], ?_⟩⟩
        simp [sumStored]
        omega
      | some pr =>
        obtain ⟨next1, inflight1⟩ := pr
        rw [runPutGo_step n want beh sched m k next inflight remaining next1 inflight1
          hrem hl, Prod.mk.injEq] at h
        obtain ⟨hre, htr⟩ := h
        subst htr
        rw [sumStored_append, sumStored_map_launch, sumStored_cons_recv]
        by_cases hok : (beh (inflight1.getD (sched k % inflight1.length) 0)).1 = true
        · simp only [if_pos hok] at hre ⊢
          have ihh := ih (k + 1) next1 (inflight1.eraseIdx (sched k % inflight1.length))
            (remaining - ((beh (inflight1.getD (sched k % inflight1.length) 0)).2 : Int))
            rep err
            (runPutGo n want beh sched m (k + 1) next1
              (inflight1.eraseIdx (sched k % inflight1.length))
              (remaining - ((beh (inflight1.getD (sched k % inflight1.length) 0)).2 : Int))).2
            (by rw [← hre])
          constructor
          · intro he
            obtain ⟨h1, h2⟩ := ihh.1 he
            exact ⟨h1, by omega⟩
          · intro he
            obtain ⟨h1, h2, h3⟩ := ihh.2 he
            exact ⟨h1, by omega, by omega⟩
        · simp only [if_neg hok] at hre ⊢
          have ihh := ih (k + 1) next1 (inflight1.eraseIdx (sched k % inflight1.length))
            remaining rep err
            (runPutGo n want beh sched m (k + 1) next1
              (inflight1.eraseIdx (sched k % inflight1.length)) remaining).2
            (by rw [← hre])
          constructor
          · intro he
            obtain ⟨h1, h2⟩ := ihh.1 he
            exact ⟨h1, by omega⟩
          · intro he
            obtain ⟨h1, h2, h3⟩ := ihh.2 he
            exact ⟨h1, by omega, by omega⟩
    · rw [runPutGo_exit n want beh sched (m + 1) k next inflight remaining hrem,
        Prod.mk.injEq, Prod.mk.injEq] at h
      obtain ⟨⟨hrep, herr⟩, htr⟩ := h
      subst hrep herr htr
      refine ⟨fun _ => ⟨rfl, ?_⟩, fun hc => absurd rfl hc⟩
      simp [sumStored]
      omega

theorem launches_cons_launch (s : Nat) (t : List Ev) :
    launches (Ev.launch s :: t) = s :: launches t := rfl

theorem launches_cons_recv (s : Nat) (ok : Bool) (st : Nat) (t : List Ev) :
    launches (Ev.recv s ok st :: t) = launches t := rfl

theorem recvs_cons_launch (s : Nat) (t : List Ev) :
    recvs (Ev.launch s :: t) = recvs t := rfl

theorem recvs_cons_recv (s : Nat) (ok : Bool) (st : Nat) (t : List Ev) :
    recvs (Ev.recv s ok st :: t) = s :: recvs t := rfl

theorem sumStored_cons_launch (s : Nat) (t : List Ev) :
    sumStored (Ev.launch s :: t) = sumStored t := rfl

theorem sumStored_of_recvs_nil : ∀ t : List Ev, recvs t = [] → sumStored t = 0
  | [], _ => rfl
  | Ev.launch s :: t, h => by
    rw [sumStored_cons_launch]
    exact sumStored_of_recvs_nil t (by simpa [recvs_cons_launch] using h)
  | Ev.recv s ok st :: t, h => by
    rw [recvs_cons_recv] at h
    exact absurd h (by simp)

/-- Conservation of in-flight requests: over the whole run, the statuses
received are exactly the in-flight ones plus the newly launched ones minus
the ones still in flight at exit (`rest`); and on an error exit nothing is
left in flight and every server of the probe sequence was launched. -/
theorem runPutGo_conserve (n : Nat) (want : Int) (beh : Nat → Bool × Nat) (sched : Nat → Nat) :
    ∀ (m k next : Nat) (inflight : List Nat) (remaining : Int)
      (rep : Int) (err : Option KeepError) (tr : List Ev),
      next ≤ n → (n - next) + inflight.length = m →
      runPutGo n want beh sched m k next inflight remaining = ((rep, err), tr) →
      ∃ rest, (recvs tr ++ rest).Perm (inflight ++ launches tr) ∧
        (err ≠ none → rest = [] ∧ launches tr = List.range' next (n - next)) := by
  intro m
  induction m with
  | zero =>
    intro k next inflight remaining rep err tr hn hm h
    have hinfnil : inflight = [] := List.length_eq_zero.mp (by omega)
    subst hinfnil
    by_cases hrem : 0 < remaining
    · have hl : launchPhase n next [] remaining = none := by
        unfold launchPhase
        rw [show n - next = 0 from by omega]
        rw [launchGo]
        simp [hrem]
      rw [runPutGo_noLaunch n want beh sched 0 k next [] remaining hrem hl,
        Prod.mk.injEq, Prod.mk.injEq] at h
      obtain ⟨⟨hrep, herr⟩, htr⟩ := h
      subst hrep herr htr
      refine ⟨[], by simp [recvs, launches], fun _ => ⟨rfl, ?_⟩⟩
      rw [show n - next = 0 from by omega]
      simp [launches]
    · rw [runPutGo_exit n want beh sched 0 k next [] remaining hrem,
        Prod.mk.injEq, Prod.mk.injEq] at h
      obtain ⟨⟨hrep, herr⟩, htr⟩ := h
      subst hrep herr htr
      exact ⟨[], by simp [recvs, launches], fun hc => absurd rfl hc⟩
  | succ m ih =>
    intro k next inflight remaining rep err tr hn hm h
    by_cases hrem : 0 < remaining
    · cases hl : launchPhase n next inflight remaining with
      | none =>
        obtain ⟨hinfnil, hnn, -⟩ := launchPhase_none n next inflight remaining hl
        subst hinfnil
        rw [runPutGo_noLaunch n want beh sched (m + 1) k next [] remaining hrem hl,
          Prod.mk.injEq, Prod.mk.injEq] at h
        obtain ⟨⟨hrep, herr⟩, htr⟩ := h
        subst hrep herr htr
        refine ⟨[], by simp [recvs, launches], fun _ => ⟨rfl, ?_⟩⟩
        rw [show n - next = 0 from by omega]
        simp [launches]
      | some pr =>
        obtain ⟨next1, inflight1⟩ := pr
        obtain ⟨d, hnext1, hn1, hinf1, hbound, hne⟩ :=
          launchPhase_shape n next inflight remaining next1 inflight1 hn hl
        have hne1 : inflight1 ≠ [] := hne hrem
        have hlpos : 0 < inflight1.length := List.length_pos.mpr hne1
        have hi : sched k % inflight1.length < inflight1.length := Nat.mod_lt _ hlpos
        have hlen1 : inflight1.length = inflight.length + d := by
          rw [hinf1, List.length_append, List.length_range']
        have herlen : (inflight1.eraseIdx (sched k % inflight1.length)).length + 1 =
            inflight1.length := List.length_eraseIdx_add_one hi
        rw [runPutGo_step n want beh sched m k next inflight remaining next1 inflight1
          hrem hl, Prod.mk.injEq] at h
        obtain ⟨hre, htr⟩ := h
        subst htr
        have hd : next1 - next = d := by omega
        by_cases hok : (beh (inflight1.getD (sched k % inflight1.length) 0)).1 = true
        · simp only [if_pos hok] at hre ⊢
          obtain ⟨rest, hperm, herr⟩ := ih (k + 1) next1
            (inflight1.eraseIdx (sched k % inflight1.length))
            (remaining - ((beh (inflight1.getD (sched k % inflight1.length) 0)).2 : Int))
            rep err
            (runPutGo n want beh sched m (k + 1) next1
              (inflight1.eraseIdx (sched k % inflight1.length))
              (remaining - ((beh (inflight1.getD (sched k % inflight1.length) 0)).2 : Int))).2
            hn1 (by omega) (by rw [← hre])
          refine ⟨rest, ?_, ?_⟩
          · rw [recvs_append, recvs_map_launch, recvs_cons_recv, launches_append,
              launches_map_launch, launches_cons_recv, hd]
            simp only [List.nil_append, List.cons_append]
            refine (hperm.cons _).trans ?_
            rw [← List.append_assoc, ← hinf1]
            have p2 := (getD_cons_eraseIdx_perm 0 inflight1
              (sched k % inflight1.length) hi).append_right
              (launches (runPutGo n want beh sched m (k + 1) next1
                (inflight1.eraseIdx (sched k % inflight1.length))
                (remaining - ((beh (inflight1.getD (sched k % inflight1.length) 0)).2 : Int))).2)
            simpa using p2
          · intro he
            obtain ⟨hrest0, hlaun⟩ := herr he
            refine ⟨hrest0, ?_⟩
            rw [launches_append, launches_map_launch, launches_cons_recv, hd, hlaun,
              hnext1, range'_glue]
            rw [show d + (n - (next + d)) = n - next from by omega]
        · simp only [if_neg hok] at hre ⊢
          obtain ⟨rest, hperm, herr⟩ := ih (k + 1) next1
            (inflight1.eraseIdx (sched k % inflight1.length)) remaining rep err
            (runPutGo n want beh sched m (k + 1) next1
              (inflight1.eraseIdx (sched k % inflight1.length)) remaining).2
            hn1 (by omega) (by rw [← hre])
          refine ⟨rest, ?_, ?_⟩
          · rw [recvs_append, recvs_map_launch, recvs_cons_recv, launches_append,
              launches_map_launch, launches_cons_recv, hd]
            simp only [List.nil_append, List.cons_append]
            refine (hperm.cons _).trans ?_
            rw [← List.append_assoc, ← hinf1]
            have p2 := (getD_cons_eraseIdx_perm 0 inflight1
              (sched k % inflight1.length) hi).append_right
              (launches (runPutGo n want beh sched m (k + 1) next1
                (inflight1.eraseIdx (sched k % inflight1.length)) remaining).2)
            simpa using p2
          · intro he
            obtain ⟨hrest0, hlaun⟩ := herr he
            refine ⟨hrest0, ?_⟩
            rw [launches_append, launches_map_launch, launches_cons_recv, hd, hlaun,
              hnext1, range'_glue]
            rw [show d + (n - (next + d)) = n - next from by omega]
    · rw [runPutGo_exit n want beh sched (m + 1) k next inflight remaining hrem,
        Prod.mk.injEq, Prod.mk.injEq] at h
      obtain ⟨⟨hrep, herr⟩, htr⟩ := h
      subst hrep herr htr
      exact ⟨inflight, by simp [recvs, launches], fun hc => absurd rfl hc⟩

/-- Every status received during a run reports the behaviour of a server
of the probe sequence: its index is below `n` and its `ok`/`stored` data
is exactly what that server answers. -/
theorem runPutGo_recvData (n : Nat) (want : Int) (beh : Nat → Bool × Nat) (sched : Nat → Nat) :
    ∀ (m k next : Nat) (inflight : List Nat) (remaining : Int)
      (rep : Int) (err : Option KeepError) (tr : List Ev),
      next ≤ n → (∀ x ∈ inflight, x < n) →
      runPutGo n want beh sched m k next inflight remaining = ((rep, err), tr) →
      ∀ s ok st, Ev.recv s ok st ∈ tr → s < n ∧ ok = (beh s).1 ∧ st = (beh s).2 := by
  intro m
  induction m with
  | zero =>
    intro k next inflight remaining rep err tr hn hinf h s ok st hmem
    by_cases hrem : 0 < remaining
    · cases hl : launchPhase n next inflight remaining with
      | none =>
        rw [runPutGo_noLaunch n want beh sched 0 k next inflight remaining hrem hl,
          Prod.mk.injEq, Prod.mk.injEq] at h
        obtain ⟨-, htr⟩ := h
        rw [← htr] at hmem
        exact absurd hmem (by simp)
      | some pr =>
        obtain ⟨next1, inflight1⟩ := pr
        rw [runPutGo_fuel n want beh sched k next inflight remaining next1 inflight1
          hrem hl, Prod.mk.injEq, Prod.mk.injEq] at h
        obtain ⟨-, htr⟩ := h
        rw [← htr] at hmem
        exact absurd hmem (by simp)
    · rw [runPutGo_exit n want beh sched 0 k next inflight remaining hrem,
        Prod.mk.injEq, Prod.mk.injEq] at h
      obtain ⟨-, htr⟩ := h
      rw [← htr] at hmem
      exact absurd hmem (by simp)
  | succ m ih =>
    intro k next inflight remaining rep err tr hn hinf h s ok st hmem
    by_cases hrem : 0 < remaining
    · cases hl : launchPhase n next inflight remaining with
      | none =>
        rw [runPutGo_noLaunch n want beh sched (m + 1) k next inflight remaining hrem hl,
          Prod.mk.injEq, Prod.mk.injEq] at h
        obtain ⟨-, htr⟩ := h
        rw [← htr] at hmem
        exact absurd hmem (by simp)
      | some pr =>
        obtain ⟨next1, inflight1⟩ := pr
        obtain ⟨d, hnext1, hn1, hinf1, hbound, hne⟩ :=
          launchPhase_shape n next inflight remaining next1 inflight1 hn hl
        have hne1 : inflight1 ≠ [] := hne hrem
        have hlpos : 0 < inflight1.length := List.length_pos.mpr hne1
        have hi : sched k % inflight1.length < inflight1.length := Nat.mod_lt _ hlpos
        have hmem1 : ∀ x ∈ inflight1, x < n := by
          intro x hx
          rw [hinf1] at hx
          rcases List.mem_append.mp hx with hx | hx
          · exact hinf x hx
          · have := List.mem_range'_1.mp hx
            omega
        have hsrv : inflight1.getD (sched k % inflight1.length) 0 ∈ inflight1 := by
          rw [List.getD_eq_getElem inflight1 0 hi]
          exact List.getElem_mem hi
        rw [runPutGo_step n want beh sched m k next inflight remaining next1 inflight1
          hrem hl, Prod.mk.injEq] at h
        obtain ⟨hre, htr⟩ := h
        rw [← htr] at hmem
        rcases List.mem_append.mp hmem with hmem | hmem
        · obtain ⟨a, -, habs⟩ := List.mem_map.mp hmem
          exact absurd habs (by simp)
        · rcases List.mem_cons.mp hmem with hmem | hmem
          · obtain ⟨hs, hok, hst⟩ : s = inflight1.getD (sched k % inflight1.length) 0 ∧
                ok = (beh (inflight1.getD (sched k % inflight1.length) 0)).1 ∧
                st = (beh (inflight1.getD (sched k % inflight1.length) 0)).2 := by
              simpa [Ev.recv.injEq] using hmem
            subst hs hok hst
            exact ⟨hmem1 _ hsrv, rfl, rfl⟩
          · have hsub : ∀ x ∈ inflight1.eraseIdx (sched k % inflight1.length), x < n :=
              fun x hx => hmem1 x (List.eraseIdx_subset inflight1 _ hx)
            by_cases hok2 : (beh (inflight1.getD (sched k % inflight1.length) 0)).1 = true
            · simp only [if_pos hok2] at hre hmem
              exact ih (k + 1) next1 (inflight1.eraseIdx (sched k % inflight1.length))
                (remaining - ((beh (inflight1.getD (sched k % inflight1.length) 0)).2 : Int))
                rep err
                (runPutGo n want beh sched m (k + 1) next1
                  (inflight1.eraseIdx (sched k % inflight1.length))
                  (remaining - ((beh (inflight1.getD (sched k % inflight1.length) 0)).2 : Int))).2
                hn1 hsub (by rw [← hre]) s ok st hmem
            · simp only [if_neg hok2] at hre hmem
              exact ih (k + 1) next1 (inflight1.eraseIdx (sched k % inflight1.length))
                remaining rep err
                (runPutGo n want beh sched m (k + 1) next1
                  (inflight1.eraseIdx (sched k % inflight1.length)) remaining).2
                hn1 hsub (by rw [← hre]) s ok st hmem
    · rw [runPutGo_exit n want beh sched (m + 1) k next inflight remaining hrem,
        Prod.mk.injEq, Prod.mk.injEq] at h
      obtain ⟨-, htr⟩ := h
      rw [← htr] at hmem
      exact absurd hmem (by simp)

/-- Launch-time bound: whenever `putReplicas` launches a new upload, the
outstanding count including the new attempt stays within the current
deficit (which is therefore positive), the server index is inside the
probe sequence, and the outstanding count never goes negative.  The
occurrences of `inflight.length` translate the in-flight requests of the
enclosing state into the trace-replay quantities. -/
theorem runPutGo_launchBound (n : Nat) (want : Int) (beh : Nat → Bool × Nat) (sched : Nat → Nat) :
    ∀ (m k next : Nat) (inflight : List Nat) (remaining : Int)
      (rep : Int) (err : Option KeepError) (tr : List Ev),
      next ≤ n →
      runPutGo n want beh sched m k next inflight remaining = ((rep, err), tr) →
      ∀ p s q, tr = p ++ Ev.launch s :: q →
        s < n ∧ 0 ≤ (inflight.length : Int) + activeAfter p ∧
        (inflight.length : Int) + activeAfter p + 1 ≤ remaining - sumStored p := by
  intro m
  induction m with
  | zero =>
    intro k next inflight remaining rep err tr hn h p s q hdec
    by_cases hrem : 0 < remaining
    · cases hl : launchPhase n next inflight remaining with
      | none =>
        rw [runPutGo_noLaunch n want beh sched 0 k next inflight remaining hrem hl,
          Prod.mk.injEq, Prod.mk.injEq] at h
        obtain ⟨-, htr⟩ := h
        rw [← htr] at hdec
        cases p <;> simp at hdec
      | some pr =>
        obtain ⟨next1, inflight1⟩ := pr
        rw [runPutGo_fuel n want beh sched k next inflight remaining next1 inflight1
          hrem hl, Prod.mk.injEq, Prod.mk.injEq] at h
        obtain ⟨-, htr⟩ := h
        rw [← htr] at hdec
        cases p <;> simp at hdec
    · rw [runPutGo_exit n want beh sched 0 k next inflight remaining hrem,
        Prod.mk.injEq, Prod.mk.injEq] at h
      obtain ⟨-, htr⟩ := h
      rw [← htr] at hdec
      cases p <;> simp at hdec
  | succ m ih =>
    intro k next inflight remaining rep err tr hn h p s q hdec
    by_cases hrem : 0 < remaining
    · cases hl : launchPhase n next inflight remaining with
      | none =>
        rw [runPutGo_noLaunch n want beh sched (m + 1) k next inflight remaining hrem hl,
          Prod.mk.injEq, Prod.mk.injEq] at h
        obtain ⟨-, htr⟩ := h
        rw [← htr] at hdec
        cases p <;> simp at hdec
      | some pr =>
        obtain ⟨next1, inflight1⟩ := pr
        obtain ⟨d, hnext1, hn1, hinf1, hbound, hne⟩ :=
          launchPhase_shape n next inflight remaining next1 inflight1 hn hl
        have hne1 : inflight1 ≠ [] := hne hrem
        have hlpos : 0 < inflight1.length := List.length_pos.mpr hne1
        have hi : sched k % inflight1.length < inflight1.length := Nat.mod_lt _ hlpos
        have hlen1 : inflight1.length = inflight.length + d := by
          rw [hinf1, List.length_append, List.length_range']
        have herlen : (inflight1.eraseIdx (sched k % inflight1.length)).length + 1 =
            inflight1.length := List.length_eraseIdx_add_one hi
        have hd : next1 - next = d := by omega
        rw [runPutGo_step n want beh sched m k next inflight remaining next1 inflight1
          hrem hl, Prod.mk.injEq] at h
        obtain ⟨hre, htr⟩ := h
        rw [hd] at htr
        rw [← htr] at hdec
        rcases List.append_eq_append_iff.mp hdec with ⟨a1, ha1, ha2⟩ | ⟨c1, hc1, hc2⟩
        · cases a1 with
          | nil =>
            rw [List.nil_append] at ha2
            exact absurd ha2 (by simp)
          | cons e a2 =>
            rw [List.cons_append, List.cons.injEq] at ha2
            obtain ⟨he, hrest⟩ := ha2
            subst he
            subst ha1
            by_cases hok2 : (beh (inflight1.getD (sched k % inflight1.length) 0)).1 = true
            · simp only [if_pos hok2] at hre hrest
              obtain ⟨ih1, ih2, ih3⟩ := ih (k + 1) next1
                (inflight1.eraseIdx (sched k % inflight1.length))
                (remaining - ((beh (inflight1.getD (sched k % inflight1.length) 0)).2 : Int))
                rep err
                (runPutGo n want beh sched m (k + 1) next1
                  (inflight1.eraseIdx (sched k % inflight1.length))
                  (remaining - ((beh (inflight1.getD (sched k % inflight1.length) 0)).2 : Int))).2
                hn1 (by rw [← hre]) a2 s q hrest
              refine ⟨ih1, ?_, ?_⟩ <;>
              · simp only [activeAfter, sumStored_append, sumStored_map_launch,
                  sumStored_cons_recv, if_pos hok2, launches_append, launches_map_launch,
                  launches_cons_recv, recvs_append, recvs_map_launch, recvs_cons_recv,
                  List.nil_append, List.length_nil, List.length_append, List.length_cons,
                  List.length_range'] at ih2 ih3 ⊢
                push_cast at ih2 ih3 ⊢
                omega
            · simp only [if_neg hok2] at hre hrest
              obtain ⟨ih1, ih2, ih3⟩ := ih (k + 1) next1
                (inflight1.eraseIdx (sched k % inflight1.length)) remaining rep err
                (runPutGo n want beh sched m (k + 1) next1
                  (inflight1.eraseIdx (sched k % inflight1.length)) remaining).2
                hn1 (by rw [← hre]) a2 s q hrest
              refine ⟨ih1, ?_, ?_⟩ <;>
              · simp only [activeAfter, sumStored_append, sumStored_map_launch,
                  sumStored_cons_recv, if_neg hok2, launches_append, launches_map_launch,
                  launches_cons_recv, recvs_append, recvs_map_launch, recvs_cons_recv,
                  List.nil_append, List.length_nil, List.length_append, List.length_cons,
                  List.length_range'] at ih2 ih3 ⊢
                push_cast at ih2 ih3 ⊢
                omega
        · cases c1 with
          | nil =>
            rw [List.nil_append] at hc2
            exact absurd hc2 (by simp)
          | cons e c2 =>
            rw [List.cons_append, List.cons.injEq] at hc2
            obtain ⟨he, -⟩ := hc2
            subst he
            have hLa : List.range' next d = launches p ++ s :: launches c2 := by
              have hcg := congrArg launches hc1
              rw [launches_map_launch, launches_append, launches_cons_launch] at hcg
              exact hcg
            have hRe : recvs p = [] := by
              have hcg := congrArg recvs hc1
              rw [recvs_map_launch, recvs_append, recvs_cons_launch] at hcg
              exact (List.append_eq_nil.mp hcg.symm).1
            have hSu : sumStored p = 0 := sumStored_of_recvs_nil p hRe
            have hsmem : s ∈ List.range' next d := by
              rw [hLa]
              exact List.mem_append.mpr (Or.inr (List.mem_cons_self s (launches c2)))
            have hsr := List.mem_range'_1.mp hsmem
            have hjlt : (launches p).length < d := by
              have hcg := congrArg List.length hLa
              rw [List.length_range', List.length_append, List.length_cons] at hcg
              omega
            have hb := hbound (launches p).length hjlt
            refine ⟨by omega, ?_, ?_⟩ <;>
            · simp only [activeAfter, hRe, hSu, List.length_nil]
              push_cast
              push_cast at hb
              omega
    · rw [runPutGo_exit n want beh sched (m + 1) k next inflight remaining hrem,
        Prod.mk.injEq, Prod.mk.injEq] at h
      obtain ⟨-, htr⟩ := h
      rw [← htr] at hdec
      cases p <;> simp at hdec

/-- The launches of a run are a consecutive block of probe-sequence
positions starting at `next_server`. -/
theorem runPutGo_launches (n : Nat) (want : Int) (beh : Nat → Bool × Nat) (sched : Nat → Nat) :
    ∀ (m k next : Nat) (inflight : List Nat) (remaining : Int)
      (rep : Int) (err : Option KeepError) (tr : List Ev),
      next ≤ n →
      runPutGo n want beh sched m k next inflight remaining = ((rep, err), tr) →
      ∃ d, next + d ≤ n ∧ launches tr = List.range' next d := by
  intro m
  induction m with
  | zero =>
    intro k next inflight remaining rep err tr hn h
    by_cases hrem : 0 < remaining
    · cases hl : launchPhase n next inflight remaining with
      | none =>
        rw [runPutGo_noLaunch n want beh sched 0 k next inflight remaining hrem hl,
          Prod.mk.injEq, Prod.mk.injEq] at h
        obtain ⟨-, htr⟩ := h
        rw [← htr]
        exact ⟨0, by omega, by simp [launches]⟩
      | some pr =>
        obtain ⟨next1, inflight1⟩ := pr
        rw [runPutGo_fuel n want beh sched k next inflight remaining next1 inflight1
          hrem hl, Prod.mk.injEq, Prod.mk.injEq] at h
        obtain ⟨-, htr⟩ := h
        rw [← htr]
        exact ⟨0, by omega, by simp [launches]⟩
    · rw [runPutGo_exit n want beh sched 0 k next inflight remaining hrem,
        Prod.mk.injEq, Prod.mk.injEq] at h
      obtain ⟨-, htr⟩ := h
      rw [← htr]
      exact ⟨0, by omega, by simp [launches]⟩
  | succ m ih =>
    intro k next inflight remaining rep err tr hn h
    by_cases hrem : 0 < remaining
    · cases hl : launchPhase n next inflight remaining with
      | none =>
        rw [runPutGo_noLaunch n want beh sched (m + 1) k next inflight remaining hrem hl,
          Prod.mk.injEq, Prod.mk.injEq] at h
        obtain ⟨-, htr⟩ := h
        rw [← htr]
        exact ⟨0, by omega, by simp [launches]⟩
      | some pr =>
        obtain ⟨next1, inflight1⟩ := pr
        obtain ⟨d, hnext1, hn1, hinf1, hbound, hne⟩ :=
          launchPhase_shape n next inflight remaining next1 inflight1 hn hl
        have hd : next1 - next = d := by omega
        rw [runPutGo_step n want beh sched m k next inflight remaining next1 inflight1
          hrem hl, Prod.mk.injEq] at h
        obtain ⟨hre, htr⟩ := h
        rw [← htr]
        by_cases hok2 : (beh (inflight1.getD (sched k % inflight1.length) 0)).1 = true
        · simp only [if_pos hok2] at hre ⊢
          obtain ⟨d2, hd2, hlau⟩ := ih (k + 1) next1
            (inflight1.eraseIdx (sched k % inflight1.length))
            (remaining - ((beh (inflight1.getD (sched k % inflight1.length) 0)).2 : Int))
            rep err
            (runPutGo n want beh sched m (k + 1) next1
              (inflight1.eraseIdx (sched k % inflight1.length))
              (remaining - ((beh (inflight1.getD (sched k % inflight1.length) 0)).2 : Int))).2
            hn1 (by rw [← hre])
          refine ⟨d + d2, by omega, ?_⟩
          rw [launches_append, launches_map_launch, launches_cons_recv, hd, hlau, hnext1,
            range'_glue]
        · simp only [if_neg hok2] at hre ⊢
          obtain ⟨d2, hd2, hlau⟩ := ih (k + 1) next1
            (inflight1.eraseIdx (sched k % inflight1.length)) remaining rep err
            (runPutGo n want beh sched m (k + 1) next1
              (inflight1.eraseIdx (sched k % inflight1.length)) remaining).2
            hn1 (by rw [← hre])
          refine ⟨d + d2, by omega, ?_⟩
          rw [launches_append, launches_map_launch, launches_cons_recv, hd, hlau, hnext1,
            range'_glue]
    · rw [runPutGo_exit n want beh sched (m + 1) k next inflight remaining hrem,
        Prod.mk.injEq, Prod.mk.injEq] at h
      obtain ⟨-, htr⟩ := h
      rw [← htr]
      exact ⟨0, by omega, by simp [launches]⟩

theorem storedOf_nonneg (beh : Nat → Bool × Nat) (s : Nat) : 0 ≤ storedOf beh s := by
  unfold storedOf
  split <;> simp

/-- When every received status reports the behaviour of its server, the
total replicas stored is the sum of the per-server contributions over the
received servers. -/
theorem sumStored_eq_sum_storedOf (beh : Nat → Bool × Nat) :
    ∀ t : List Ev,
      (∀ s ok st, Ev.recv s ok st ∈ t → ok = (beh s).1 ∧ st = (beh s).2) →
      sumStored t = ((recvs t).map (storedOf beh)).sum
  | [], _ => rfl
  | Ev.launch s :: t, h => by
    rw [sumStored_cons_launch, recvs_cons_launch]
    exact sumStored_eq_sum_storedOf beh t fun s1 ok st hm =>
      h s1 ok st (List.mem_cons_of_mem _ hm)
  | Ev.recv s ok st :: t, h => by
    obtain ⟨hok, hst⟩ := h s ok st (List.mem_cons_self _ _)
    rw [sumStored_cons_recv, recvs_cons_recv, List.map_cons, List.sum_cons, hok, hst]
    rw [sumStored_eq_sum_storedOf beh t fun s1 ok1 st1 hm =>
      h s1 ok1 st1 (List.mem_cons_of_mem _ hm)]
    unfold storedOf
    rfl

/-- If every healthy server stores exactly one replica, the total
contribution of a set of servers is the number of healthy ones among
them. -/
theorem sum_storedOf_ones (beh : Nat → Bool × Nat)
    (hone : ∀ i, (beh i).1 = true → (beh i).2 = 1) :
    ∀ l : List Nat,
      (l.map (storedOf beh)).sum = ((l.countP fun i => (beh i).1 : Nat) : Int)
  | [] => rfl
  | a :: l => by
    rw [List.map_cons, List.sum_cons, List.countP_cons, sum_storedOf_ones beh hone l]
    unfold storedOf
    by_cases ha : (beh a).1 = true
    · rw [if_pos ha, hone a ha]
      simp [ha]
      ring
    · rw [if_neg ha]
      simp [ha]

/-- Inverting the `Option.map` in `putReplicas`. -/
theorem putReplicas_unpack (kc : KeepClient) (hash : List Char)
    (beh : Nat → Bool × Nat) (sched : Nat → Nat)
    (res : (Int × Option KeepError) × List Ev)
    (hrun : kc.putReplicas hash beh sched = some res) :
    ∃ sv, kc.shuffledServiceRoots hash = some sv ∧
      runPut sv.length kc.Want_replicas beh sched = res := by
  rw [KeepClient.putReplicas] at hrun
  cases hh : kc.shuffledServiceRoots hash with
  | none => rw [hh] at hrun; exact absurd hrun (by simp)
  | some sv =>
    rw [hh] at hrun
    exact ⟨sv, rfl, by simpa using hrun⟩

/-- For a digest of at least 8 digits the probe sequence is as long as the
backend list. -/
theorem shuffledServiceRoots_length (kc : KeepClient) (hash : List Char) (sv : List String)
    (hlen : 8 ≤ hash.length) (hsv : kc.shuffledServiceRoots hash = some sv) :
    sv.length = kc.Service_roots.length := by
  obtain ⟨l, hl, hperm⟩ := shuffledLoop_perm hash hlen kc.Service_roots.length
    kc.Service_roots rfl hash []
  rw [KeepClient.shuffledServiceRoots] at hsv
  rw [hsv] at hl
  obtain rfl : sv = l := by simpa using hl
  rw [List.nil_append] at hperm
  exact hperm.length_eq

/-- C4: for every completed call of `putReplicas`, the error is nil
exactly when the replicas reported stored by the successful backends reach
`Want_replicas`; otherwise the call returns `InsufficientReplicasError`
together with exactly that sum of reported replicas as the achieved
count. -/
theorem putReplicas_error_iff_insufficient (kc : KeepClient) (hash : List Char)
    (beh : Nat → Bool × Nat) (sched : Nat → Nat) (rep : Int) (err : Option KeepError)
    (tr : List Ev) (hrun : kc.putReplicas hash beh sched = some ((rep, err), tr)) :
    (err = none ↔ kc.Want_replicas ≤ sumStored tr) ∧
    (err ≠ none → err = some InsufficientReplicasError ∧ rep = sumStored tr) := by
  obtain ⟨sv, -, hrp⟩ := putReplicas_unpack kc hash beh sched _ hrun
  rw [runPut] at hrp
  have hres := runPutGo_result sv.length kc.Want_replicas beh sched sv.length 0 0 []
    kc.Want_replicas rep err tr hrp
  refine ⟨⟨fun he => ?_, fun hge => ?_⟩, fun hne => ?_⟩
  · have h2 := (hres.1 he).2
    omega
  · by_contra hne
    have h2 := (hres.2 hne).2.2
    omega
  · obtain ⟨hi, hr, hp⟩ := hres.2 hne
    exact ⟨hi, by omega⟩

theorem putReplicas_error_iff_insufficient_witness :
    ((none : Option KeepError) = none ↔
      (1 : Int) ≤ sumStored [Ev.launch 0, Ev.recv 0 true 1]) ∧
    ((none : Option KeepError) ≠ none →
      (none : Option KeepError) = some InsufficientReplicasError ∧
      (1 : Int) = sumStored [Ev.launch 0, Ev.recv 0 true 1]) :=
  putReplicas_error_iff_insufficient
    { ApiServer := "", ApiToken := "", External := false, Using_proxy := false,
      Service_roots := ["http://a", "http://b"], Want_replicas := 1 }
    "0123456789abcdef".toList (fun _ => (true, 1)) (fun _ => 0) 1 none
    [Ev.launch 0, Ev.recv 0 true 1] (by decide)

/-- C10: whenever `putReplicas` returns a nil error, the replica count it
returns is exactly `Want_replicas`, even though the sum of the replicas
the backends reported stored may be strictly larger (it is only known to
be at least `Want_replicas`): a caller never observes an achieved count
above the requirement on success. -/
theorem putReplicas_success_exact_want (kc : KeepClient) (hash : List Char)
    (beh : Nat → Bool × Nat) (sched : Nat → Nat) (rep : Int) (tr : List Ev)
    (hrun : kc.putReplicas hash beh sched = some ((rep, none), tr)) :
    rep = kc.Want_replicas ∧ kc.Want_replicas ≤ sumStored tr := by
  obtain ⟨sv, -, hrp⟩ := putReplicas_unpack kc hash beh sched _ hrun
  rw [runPut] at hrp
  have hres := runPutGo_result sv.length kc.Want_replicas beh sched sv.length 0 0 []
    kc.Want_replicas rep none tr hrp
  obtain ⟨h1, h2⟩ := hres.1 rfl
  exact ⟨h1, by omega⟩

theorem putReplicas_success_exact_want_witness :
    (1 : Int) = (1 : Int) ∧ (1 : Int) ≤ sumStored [Ev.launch 0, Ev.recv 0 true 2] :=
  putReplicas_success_exact_want
    { ApiServer := "", ApiToken := "", External := false, Using_proxy := false,
      Service_roots := ["http://a", "http://b"], Want_replicas := 1 }
    "0123456789abcdef".toList (fun _ => (true, 2)) (fun _ => 0) 1
    [Ev.launch 0, Ev.recv 0 true 2] (by decide)

/-- C6 counterexample: the outstanding-attempts count can exceed the
remaining replica deficit during an execution of `putReplicas`.  With two
backends, `Want_replicas = 2`, and the first backend's success reporting
`X-Keep-Replicas-Stored: 2`, the state reached after the recorded trace
(replayed by `activeAfter`/`remainingAfter`) has one upload still
outstanding while the deficit is already zero. -/
theorem putReplicas_active_bound_counterexample :
    ({ ApiServer := "", ApiToken := "", External := false, Using_proxy := false,
       Service_roots := ["http://a", "http://b"], Want_replicas := 2 } :
        KeepClient).putReplicas "0123456789abcdef".toList (fun _ => (true, 2))
        (fun _ => 0) =
      some ((2, none), [Ev.launch 0, Ev.launch 1, Ev.recv 0 true 2]) ∧
    remainingAfter 2 [Ev.launch 0, Ev.launch 1, Ev.recv 0 true 2] <
      activeAfter [Ev.launch 0, Ev.launch 1, Ev.recv 0 true 2] := by
  refine ⟨by decide, by decide⟩

/-- C6 amended: at every launch point the bound does hold — whenever
`putReplicas` launches a new upload attempt, the outstanding count
including the new attempt is at most the remaining deficit (hence the
deficit is positive: no attempt is launched once it reaches zero), the
chosen backend lies inside the probe sequence, and the launches as a whole
are a prefix-block of distinct probe-sequence positions (no backend is
attempted twice and none is attempted once the pool is exhausted).  Only
after a success reporting more than one stored replica can the
outstanding count transiently exceed the deficit, and then no further
attempt is launched. -/
theorem putReplicas_launch_bound (kc : KeepClient) (hash : List Char)
    (beh : Nat → Bool × Nat) (sched : Nat → Nat) (rep : Int) (err : Option KeepError)
    (tr : List Ev) (hlen : 8 ≤ hash.length)
    (hrun : kc.putReplicas hash beh sched = some ((rep, err), tr)) :
    (∀ p s q, tr = p ++ Ev.launch s :: q →
      s < kc.Service_roots.length ∧ 0 ≤ activeAfter p ∧
      activeAfter p + 1 ≤ remainingAfter kc.Want_replicas p) ∧
    ∃ d, d ≤ kc.Service_roots.length ∧ launches tr = List.range' 0 d := by
  obtain ⟨sv, hsv, hrp⟩ := putReplicas_unpack kc hash beh sched _ hrun
  rw [runPut] at hrp
  have hsvlen := shuffledServiceRoots_length kc hash sv hlen hsv
  constructor
  · intro p s q hdec
    obtain ⟨h1, h2, h3⟩ := runPutGo_launchBound sv.length kc.Want_replicas beh sched
      sv.length 0 0 [] kc.Want_replicas rep err tr (by omega) hrp p s q hdec
    rw [hsvlen] at h1
    simp only [List.length_nil, Nat.cast_zero, zero_add] at h2 h3
    exact ⟨h1, h2, h3⟩
  · obtain ⟨d, hd, hlau⟩ := runPutGo_launches sv.length kc.Want_replicas beh sched
      sv.length 0 0 [] kc.Want_replicas rep err tr (by omega) hrp
    exact ⟨d, by omega, hlau⟩

theorem putReplicas_launch_bound_witness :
    1 < (["http://a", "http://b"] : List String).length ∧
    0 ≤ activeAfter [Ev.launch 0] ∧
    activeAfter [Ev.launch 0] + 1 ≤ remainingAfter 2 [Ev.launch 0] :=
  (putReplicas_launch_bound
    { ApiServer := "", ApiToken := "", External := false, Using_proxy := false,
      Service_roots := ["http://a", "http://b"], Want_replicas := 2 }
    "0123456789abcdef".toList (fun _ => (true, 2)) (fun _ => 0) 2 none
    [Ev.launch 0, Ev.launch 1, Ev.recv 0 true 2] (by decide) (by decide)).1
    [Ev.launch 0] 1 [Ev.recv 0 true 2] (by decide)

/-- C5: placement sufficiency.  Against a pool in which each healthy
backend stores exactly one replica per successful request and all other
backends fail, a write wanting `R` replicas succeeds (nil error, achieved
count `R`) whenever the pool holds at least `R` healthy backends, and
otherwise achieves exactly the number of healthy backends and returns
`InsufficientReplicasError`, for every scheduling of the responses. -/
theorem putReplicas_placement_sufficiency (kc : KeepClient) (hash : List Char)
    (beh : Nat → Bool × Nat) (sched : Nat → Nat) (rep : Int) (err : Option KeepError)
    (tr : List Ev) (hlen : 8 ≤ hash.length)
    (hone : ∀ i, (beh i).1 = true → (beh i).2 = 1)
    (hrun : kc.putReplicas hash beh sched = some ((rep, err), tr)) :
    (kc.Want_replicas ≤
        (((List.range kc.Service_roots.length).countP fun i => (beh i).1 : Nat) : Int) →
      err = none ∧ kc.Want_replicas ≤ rep) ∧
    ((((List.range kc.Service_roots.length).countP fun i => (beh i).1 : Nat) : Int) <
        kc.Want_replicas →
      rep = (((List.range kc.Service_roots.length).countP fun i => (beh i).1 : Nat) : Int) ∧
      err = some InsufficientReplicasError) := by
  obtain ⟨sv, hsv, hrp⟩ := putReplicas_unpack kc hash beh sched _ hrun
  rw [runPut] at hrp
  have hsvlen := shuffledServiceRoots_length kc hash sv hlen hsv
  rw [← hsvlen]
  have hdata := runPutGo_recvData sv.length kc.Want_replicas beh sched sv.length 0 0 []
    kc.Want_replicas rep err tr (by omega) (by simp) hrp
  have hsum : sumStored tr = ((recvs tr).map (storedOf beh)).sum :=
    sumStored_eq_sum_storedOf beh tr fun s ok st hm =>
      ⟨(hdata s ok st hm).2.1, (hdata s ok st hm).2.2⟩
  obtain ⟨rest, hperm, herrc⟩ := runPutGo_conserve sv.length kc.Want_replicas beh sched
    sv.length 0 0 [] kc.Want_replicas rep err tr (by omega) (by simp) hrp
  obtain ⟨d, hdn, hlau⟩ := runPutGo_launches sv.length kc.Want_replicas beh sched
    sv.length 0 0 [] kc.Want_replicas rep err tr (by omega) hrp
  rw [List.nil_append, hlau] at hperm
  have hresid := runPutGo_result sv.length kc.Want_replicas beh sched sv.length 0 0 []
    kc.Want_replicas rep err tr hrp
  have hsplit : ((recvs tr).map (storedOf beh)).sum + (rest.map (storedOf beh)).sum =
      ((List.range' 0 d).map (storedOf beh)).sum := by
    have hx := (hperm.map (storedOf beh)).sum_eq
    rw [List.map_append, List.sum_append] at hx
    exact hx
  have hrestpos : 0 ≤ (rest.map (storedOf beh)).sum := by
    refine List.sum_nonneg ?_
    intro x hx
    obtain ⟨s, -, rfl⟩ := List.mem_map.mp hx
    exact storedOf_nonneg beh s
  have hrangesplit : ((List.range' 0 sv.length).map (storedOf beh)).sum =
      ((List.range' 0 d).map (storedOf beh)).sum +
      ((List.range' d (sv.length - d)).map (storedOf beh)).sum := by
    conv_lhs => rw [show sv.length = d + (sv.length - d) from by omega]
    rw [← range'_glue 0 d (sv.length - d), Nat.zero_add, List.map_append, List.sum_append]
  have htailpos : 0 ≤ ((List.range' d (sv.length - d)).map (storedOf beh)).sum := by
    refine List.sum_nonneg ?_
    intro x hx
    obtain ⟨s, -, rfl⟩ := List.mem_map.mp hx
    exact storedOf_nonneg beh s
  have hRsum : ((List.range' 0 sv.length).map (storedOf beh)).sum =
      (((List.range sv.length).countP fun i => (beh i).1 : Nat) : Int) := by
    rw [← List.range_eq_range']
    exact sum_storedOf_ones beh hone (List.range sv.length)
  have hub : sumStored tr ≤
      (((List.range sv.length).countP fun i => (beh i).1 : Nat) : Int) := by
    rw [hsum]
    omega
  have hexact : err ≠ none → sumStored tr =
      (((List.range sv.length).countP fun i => (beh i).1 : Nat) : Int) := by
    intro hne
    obtain ⟨hrest0, hlau2⟩ := herrc hne
    have hdeq : d = sv.length := by
      have hx := congrArg List.length (hlau.symm.trans hlau2)
      simpa using hx
    subst hrest0
    rw [List.append_nil] at hperm
    rw [hsum, (hperm.map (storedOf beh)).sum_eq, hdeq, hRsum]
  constructor
  · intro hW
    cases err with
    | some e =>
      have hx := hexact (by simp)
      have hp := (hresid.2 (by simp)).2.2
      exfalso
      omega
    | none =>
      obtain ⟨h1, -⟩ := hresid.1 rfl
      exact ⟨rfl, by omega⟩
  · intro hB
    cases err with
    | none =>
      obtain ⟨-, h2⟩ := hresid.1 rfl
      exfalso
      omega
    | some e =>
      have hx := hexact (by simp)
      obtain ⟨hi, hr, -⟩ := hresid.2 (by simp)
      exact ⟨by omega, hi⟩

theorem putReplicas_placement_sufficiency_witness :
    ((1 : Int) ≤
      (((List.range 2).countP fun i => ((fun j : Nat => (j == 0, 1)) i).1 : Nat) : Int) →
      (none : Option KeepError) = none ∧ (1 : Int) ≤ 1) ∧
    ((((List.range 2).countP fun i => ((fun j : Nat => (j == 0, 1)) i).1 : Nat) : Int) < 1 →
      (1 : Int) =
        (((List.range 2).countP fun i => ((fun j : Nat => (j == 0, 1)) i).1 : Nat) : Int) ∧
      (none : Option KeepError) = some InsufficientReplicasError) :=
  putReplicas_placement_sufficiency
    { ApiServer := "", ApiToken := "", External := false, Using_proxy := false,
      Service_roots := ["http://a", "http://b"], Want_replicas := 1 }
    "0123456789abcdef".toList (fun j => (j == 0, 1)) (fun _ => 0) 1 none
    [Ev.launch 0, Ev.recv 0 true 1] (by decide) (fun i _ => rfl) (by decide)

/-- Modelled from the spec: the per-(volume, locator) record of
`VolumeLifecycle` — the data object plus the `recent` and `trash`
timestamp markers (spec §4.2).  The backend volume implementation
(`EmptyTrash` and friends) is not among the sources under verification,
so it is modelled from the specification text. -/
structure VolumeRecord where
  data : Option (List Nat)
  recent : Option Int
  trash : Option Int
deriving DecidableEq, Repr

/-- Modelled from the spec: `Get` fails NotFound (here `none`) once the
data object is gone (spec §4.2). -/
def volumeGet (r : VolumeRecord) : Option (List Nat) :=
  r.data

/-- Modelled from the spec: the per-record action of `EmptyTrash()` run at
time `now` with the configured trash lifetime (spec §4.2): for a record
whose trash marker age exceeds the trash lifetime, re-check the recent
marker first; if the recent marker is newer than the trash-lifetime
threshold `now - trashLifetime`, treat it as a rescue — refresh the
recent marker and skip deletion; only delete when no rescue condition
holds. -/
def emptyTrashRecord (trashLifetime now : Int) (r : VolumeRecord) : VolumeRecord :=
  match r.trash with
  | none => r
  | some tt =>
    if trashLifetime < now - tt then
      match r.recent with
      | some rt =>
        if now - trashLifetime < rt then
          { r with recent := some now }
        else { data := none, recent := none, trash := none }
      | none => { data := none, recent := none, trash := none }
    else r

/-- C7 counterexample: a record whose trash marker age (10000s) exceeds the
trash lifetime (3600s) and whose recent marker (-5000s) was refreshed
after the trash marker (-10000s) — the claim's hypotheses — is
nevertheless deleted by `EmptyTrash`, because its recent marker is older
than the trash-lifetime threshold `now - trashLifetime = -3600`; the
subsequent `Get` fails NotFound instead of returning the data. -/
theorem emptyTrash_rescue_counterexample :
    (3600 : Int) < 0 - (-10000) ∧ (-10000 : Int) < -5000 ∧
    volumeGet (emptyTrashRecord 3600 0
      { data := some [1, 2, 3], recent := some (-5000), trash := some (-10000) }) = none := by
  refine ⟨by norm_num, by norm_num, by decide⟩

/-- C7 amended: the rescue applies exactly when the recent marker is newer
than the trash-lifetime threshold `now - trashLifetime` (the spec's
operative re-check), which in particular covers every recent marker
refreshed within the trash lifetime before `EmptyTrash` runs: such a
record keeps its data, its recent marker is refreshed to `now`, and a
subsequent `Get` still returns the original data.  A recent marker that is
merely newer than the trash marker but older than the threshold does not
prevent deletion. -/
theorem emptyTrash_rescue (trashLifetime now : Int) (r : VolumeRecord)
    (bytes : List Nat) (tt rt : Int)
    (hdata : r.data = some bytes) (htrash : r.trash = some tt)
    (hage : trashLifetime < now - tt)
    (hrecent : r.recent = some rt) (hnew : now - trashLifetime < rt) :
    (emptyTrashRecord trashLifetime now r).data = some bytes ∧
    (emptyTrashRecord trashLifetime now r).recent = some now ∧
    volumeGet (emptyTrashRecord trashLifetime now r) = some bytes := by
  obtain ⟨rd, rr, rtr⟩ := r
  simp only at hdata hrecent htrash
  subst hdata hrecent htrash
  simp [emptyTrashRecord, volumeGet, hage, hnew]

theorem emptyTrash_rescue_witness :
    (emptyTrashRecord 3600 0
      { data := some [7, 7], recent := some (-300), trash := some (-43200) }).data =
        some [7, 7] ∧
    (emptyTrashRecord 3600 0
      { data := some [7, 7], recent := some (-300), trash := some (-43200) }).recent =
        some 0 ∧
    volumeGet (emptyTrashRecord 3600 0
      { data := some [7, 7], recent := some (-300), trash := some (-43200) }) =
        some [7, 7] :=
  emptyTrash_rescue 3600 0
    { data := some [7, 7], recent := some (-300), trash := some (-43200) }
    [7, 7] (-43200) (-300) rfl rfl (by norm_num) rfl (by norm_num)

/-- Modelled from the spec: the read path of the `BlockCache` (`DiskCache`,
spec §4.3).  Only the cache's test suite is among the sources under
verification, so the read path is modelled from the specification text:
`file` is the state of the local cache file for the locator at read time
(`none` when absent, deleted by concurrent eviction/tampering, or
unreadable; a file truncated by concurrent interference shows up as one
too short for the requested range), `remote` is the outcome of fetching
the whole block from the remote gateway (`none` = gateway failure), and
the caller asks for `n` bytes at offset `off`.  The local file serves the
request only when it covers the requested range; on any local failure the
read falls through to the gateway and the requested range of the fetched
bytes is returned. -/
def cacheReadAt (file : Option (List Nat)) (remote : Option (List Nat))
    (off n : Nat) : Option (List Nat) :=
  match file with
  | some bs =>
    if off + n ≤ bs.length then some ((bs.drop off).take n)
    else remote.map fun d => (d.drop off).take n
  | none => remote.map fun d => (d.drop off).take n

/-- C8: a local cache failure is never surfaced to the caller of
`ReadAt`: an error (`none`) can only arise from a failure of the remote
gateway itself; and on any local failure — file absent/deleted or too
short for the requested range — the read falls through to the remote
gateway and returns the requested byte range of the fetched block. -/
theorem cacheReadAt_local_failure_fallback (file remote : Option (List Nat)) (off n : Nat) :
    (cacheReadAt file remote off n = none → remote = none) ∧
    ((file = none ∨ ∃ bs, file = some bs ∧ bs.length < off + n) →
      cacheReadAt file remote off n = remote.map fun d => (d.drop off).take n) := by
  constructor
  · intro h
    cases file with
    | none =>
      cases remote with
      | none => rfl
      | some d => simp [cacheReadAt] at h
    | some bs =>
      by_cases hc : off + n ≤ bs.length
      · simp [cacheReadAt, hc] at h
      · cases remote with
        | none => rfl
        | some d => simp [cacheReadAt, hc] at h
  · intro h
    rcases h with h | ⟨bs, hbs, hlt⟩
    · subst h
      rfl
    · subst hbs
      simp only [cacheReadAt]
      rw [if_neg (by omega)]

theorem cacheReadAt_local_failure_fallback_witness :
    ((none : Option (List Nat)) = none ∨
      ∃ bs, (none : Option (List Nat)) = some bs ∧ bs.length < 0 + 2) ∧
    cacheReadAt none (some [5, 6, 7]) 0 2 =
      (some [5, 6, 7] : Option (List Nat)).map fun d => (d.drop 0).take 2 :=
  ⟨Or.inl rfl,
    (cacheReadAt_local_failure_fallback none (some [5, 6, 7]) 0 2).2 (Or.inl rfl)⟩

end Arvados
